import Mathlib

/-!
Verification of the US-Inland-Supply-Chain-Tracking risk pipeline.

Shallow embedding of the Python sources:
  generate_risk.py  — composite risk scoring from the three status documents
  backfill_risk.py  — historical reconstruction (as-of lookup, deltas, daily rows)
  rail_monitor.py   — rail history merge (update_hist) and metric_delta_4w
  barge_monitor.py  — barge history merge (update_history)

Modelling conventions: Python floats become ℚ (all constants and claim inputs
are exactly representable and no float rounding is relevant at the compared
magnitudes), Python ints embed in ℚ as well (arbitrary precision, no overflow),
calendar dates become integer day numbers (the sources compare ISO `YYYY-MM-DD`
strings, whose lexicographic order is the chronological order), and a pandas
DataFrame becomes a list of rows in frame order.
-/

namespace SupplyChain

/-- Translation of `clamp` from generate_risk.py: `max(lo, min(hi, x))`. -/
def clamp (x lo hi : ℚ) : ℚ := max lo (min hi x)

/-- Translation of the level classification shared verbatim by
generate_risk.py (lines 158-162) and backfill_risk.py (lines 128-130):
`level = "LOW"; if total > 70: level = "CRITICAL"; elif total > 40: level = "MODERATE"`. -/
def riskLevel (total : ℚ) : String :=
  if total > 70 then "CRITICAL" else if total > 40 then "MODERATE" else "LOW"

/-- One step of Python `max` with a key function: replace the running maximum
only when the next key is strictly greater. -/
def max_step (acc : Option (String × ℚ)) (x : String × ℚ) : Option (String × ℚ) :=
  match acc with
  | none => some x
  | some m => if x.2 > m.2 then some x else some m

/-- Translation of Python `max(drivers, key=lambda d: d["score"])`: scan left
to right keeping the current maximum, replacing it only on a strictly greater
score, so the first maximum encountered wins; `none` on the empty list. -/
def max_by_first (l : List (String × ℚ)) : Option (String × ℚ) :=
  l.foldl max_step none

/-- Translation of the primary-driver selection shared by both scorers:
`primary = "none"; if drivers: primary = max(drivers, key=...)[0]`. -/
def pick_primary (drivers : List (String × ℚ)) : String :=
  match max_by_first drivers with
  | none => "none"
  | some m => m.1

/-- Translation of the river rules of generate_risk.py lines 68-86:
start from 0, add 20 if `delta_7d < -2.0`, and independently add 20 if a
latest stage is present and `< 0.0`. -/
def river_score_of (delta_7d : ℚ) (latest_stage : Option ℚ) : ℚ :=
  let s1 : ℚ := if delta_7d < -2 then 0 + 20 else 0
  match latest_stage with
  | some v => if v < 0 then s1 + 20 else s1
  | none => s1

/-- Translation of the rail rules shared by generate_risk.py lines 112-115 and
backfill_risk.py lines 116-117: `if delta > 2.0: +30 elif delta > 0.5: +15`. -/
def rail_score_of (up_dwell_delta : ℚ) : ℚ :=
  if up_dwell_delta > 2 then 30 else if up_dwell_delta > 1/2 then 15 else 0

/-- Translation of the barge rules shared by generate_risk.py lines 139-142 and
backfill_risk.py lines 122-123: `if delta < -50: +30 elif delta < -20: +15`. -/
def barge_score_of (locks_delta : ℚ) : ℚ :=
  if locks_delta < -50 then 30 else if locks_delta < -20 then 15 else 0

/-- Output of generate_risk.py main, mirroring composite_risk_score.json
(the per-driver raw input echo is omitted as irrelevant to every claim). -/
structure RiskOutput where
  risk_score : ℚ
  risk_level : String
  primary_driver : String
  drivers : List (String × ℚ)
deriving DecidableEq

/-- Translation of generate_risk.py `main` lines 63-175, taking the already
extracted status-document fields as inputs (the `.get(...) or 0.0` defaulting
of the JSON navigation is reflected in the argument types: a missing delta is
the neutral 0, a missing latest stage is `none`). All three driver entries are
appended to `drivers` unconditionally, exactly as in the source. -/
def generate_risk (delta_7d : ℚ) (latest_stage : Option ℚ)
    (up_dwell_delta : ℚ) (locks_delta : ℚ) : RiskOutput :=
  let river_score := river_score_of delta_7d latest_stage
  let rail_score := rail_score_of up_dwell_delta
  let barge_score := barge_score_of locks_delta
  let drivers : List (String × ℚ) :=
    [("river", river_score), ("rail", rail_score), ("barge", barge_score)]
  let total := clamp (river_score + rail_score + barge_score) 0 100
  { risk_score := total
    risk_level := riskLevel total
    primary_driver := pick_primary drivers
    drivers := drivers }

/-! Embedding of backfill_risk.py. A river history (a Python dict from date
string to float) becomes a `List (Int × ℚ)` of key-value pairs with distinct
keys looked up by `dict_get`; the rail and barge DataFrames become
`List (Int × ℚ)` of `(week_end_date, value)` rows in frame order. -/

/-- Translation of Python `dict.get`: the value at the first matching key. -/
def dict_get (h : List (Int × ℚ)) (k : Int) : Option ℚ :=
  (h.find? (fun p => p.1 == k)).map (fun p => p.2)

/-- Translation of `get_as_of` from backfill_risk.py lines 68-74:
empty frame returns 0.0; otherwise filter the rows whose date is `<=` the
target and take the last one, falling back to the first row of the frame
(`df.iloc[0]`) when the filter is empty. -/
def get_as_of (df : List (Int × ℚ)) (d : Int) : ℚ :=
  match df with
  | [] => 0
  | h :: t =>
    match ((h :: t).filter (fun r => decide (r.1 ≤ d))).getLast? with
    | none => h.2
    | some r => r.2

/-- Translation of the 7-day river delta of backfill_risk.py lines 80-90:
both the target day and the day 7 days earlier must be present in the river
dict, otherwise the delta is 0.0. -/
def river_delta (river_hist : List (Int × ℚ)) (target : Int) : ℚ :=
  match dict_get river_hist target, dict_get river_hist (target - 7) with
  | some rv, some rp => rv - rp
  | some _, none => 0
  | none, _ => 0

/-- Translation of the rail 28-day delta of backfill_risk.py lines 92-96. -/
def rail_delta (rail_df : List (Int × ℚ)) (target : Int) : ℚ :=
  get_as_of rail_df target - get_as_of rail_df (target - 28)

/-- Translation of the barge 28-day delta of backfill_risk.py lines 98-101. -/
def barge_delta (barge_df : List (Int × ℚ)) (target : Int) : ℚ :=
  get_as_of barge_df target - get_as_of barge_df (target - 28)

/-- Translation of the river block of backfill_risk.py lines 107-112: the
river rules only fire when the target day itself is present in the dict
(`if r_val is not None`). -/
def bf_river_score (river_hist : List (Int × ℚ)) (target : Int) : ℚ :=
  match dict_get river_hist target with
  | none => 0
  | some rv =>
    (if river_delta river_hist target < -2 then (0 : ℚ) + 20 else 0) +
      (if rv < 0 then 20 else 0)

/-- Translation of the driver-list construction of backfill_risk.py lines
104-124: each driver is appended only when its score is strictly positive,
in evaluation order river, rail, barge. -/
def bf_driver_list (r rr b : ℚ) : List (String × ℚ) :=
  (if r > 0 then [("river", r)] else []) ++
    (if rr > 0 then [("rail", rr)] else []) ++
      (if b > 0 then [("barge", b)] else [])

/-- Translation of `compute_daily_risk` from backfill_risk.py lines 76-136,
returning `(total, level, primary)`. -/
def compute_daily_risk (target : Int) (river_hist rail_df barge_df : List (Int × ℚ)) :
    ℚ × String × String :=
  let r_score := bf_river_score river_hist target
  let rr_score := rail_score_of (rail_delta rail_df target)
  let b_score := barge_score_of (barge_delta barge_df target)
  let drivers := bf_driver_list r_score rr_score b_score
  let total := min 100 (r_score + rr_score + b_score)
  (total, riskLevel total, pick_primary drivers)

end SupplyChain

namespace SupplyChain

/-- C1: the risk level is CRITICAL iff the composite score is strictly above
70, MODERATE iff it is strictly above 40 and at most 70, and LOW otherwise;
the boundary scores 40 and 70 classify into the lower tier, so 40 is LOW,
41 is MODERATE, 70 is MODERATE and 71 is CRITICAL. -/
theorem C1_level_thresholds :
    (∀ s : ℚ,
      (riskLevel s = "CRITICAL" ↔ 70 < s) ∧
      (riskLevel s = "MODERATE" ↔ 40 < s ∧ s ≤ 70) ∧
      (riskLevel s = "LOW" ↔ s ≤ 40)) ∧
    riskLevel 40 = "LOW" ∧ riskLevel 41 = "MODERATE" ∧
    riskLevel 70 = "MODERATE" ∧ riskLevel 71 = "CRITICAL" := by
  refine ⟨fun s => ?_, by norm_num [riskLevel], by norm_num [riskLevel],
    by norm_num [riskLevel], by norm_num [riskLevel]⟩
  unfold riskLevel
  split_ifs with h1 h2 <;>
    refine ⟨?_, ?_, ?_⟩ <;> simp <;>
      first
        | linarith
        | exact ⟨by linarith, by linarith⟩
        | (intro h; linarith)

end SupplyChain

namespace SupplyChain

/-- C3 counterexample: the claimed barge tier interval `(-50, -20]` is wrong at
both endpoints. A 28-day lock-count delta of exactly `-20` scores 0 points in
the code (the claim says 15), and a delta of exactly `-50` scores 15 points
(the claim's intervals assign it 0): both scorers use `delta < -50` and
`delta < -20` strictly, making the 15-point tier `[-50, -20)`. -/
theorem C3_barge_boundary_counterexample :
    barge_score_of (-20) = 0 ∧ barge_score_of (-50) = 15 := by
  norm_num [barge_score_of]

/-- C3 (amended): for every barge 28-day lock-count delta `d`, the barge driver
scores exactly 30 points when `d < -50`, exactly 15 points when
`-50 ≤ d < -20` (so `d = -50` scores 15 and `d = -20` scores 0), and 0 points
otherwise; the two tiers are mutually exclusive, evaluated
highest-threshold-first, and never summed. The same `barge_score_of`
definition embeds the identical rule lines of generate_risk.py and
backfill_risk.py. -/
theorem C3_barge_tiers (d : ℚ) :
    (d < -50 → barge_score_of d = 30) ∧
    (-50 ≤ d → d < -20 → barge_score_of d = 15) ∧
    (-20 ≤ d → barge_score_of d = 0) := by
  unfold barge_score_of
  refine ⟨fun h => ?_, fun h1 h2 => ?_, fun h => ?_⟩
  · rw [if_pos h]
  · rw [if_neg (by linarith), if_pos h2]
  · rw [if_neg (by linarith), if_neg (by linarith)]

/-- C3 witness: the amended tier map evaluated at the in-tier delta `-30`. -/
theorem C3_barge_tiers_witness :
    (-50 : ℚ) ≤ -30 ∧ (-30 : ℚ) < -20 ∧ barge_score_of (-30) = 15 :=
  ⟨by norm_num, by norm_num, (C3_barge_tiers (-30)).2.1 (by norm_num) (by norm_num)⟩

/-- C4 counterexample: on the clean-river scenario (7-day delta `-3.0` ft,
latest stage `-0.5` ft, rail and barge deltas 0) the composite is 40, which
the level rule `total > 40` classifies as LOW, not MODERATE as the claim
states. -/
theorem C4_scenario_counterexample :
    (generate_risk (-3) (some (-1/2)) 0 0).risk_level = "LOW" ∧
    (generate_risk (-3) (some (-1/2)) 0 0).risk_level ≠ "MODERATE" := by
  have h : (generate_risk (-3) (some (-1/2)) 0 0).risk_level = "LOW" := by
    simp [generate_risk, river_score_of, rail_score_of, barge_score_of, clamp,
      riskLevel, pick_primary, max_by_first, max_step, min_def, max_def]
    norm_num
  exact ⟨h, by rw [h]; decide⟩

/-- C4 (amended): for the input river 7-day delta `-3.0` ft, latest stage
`-0.5` ft, rail delta 0 and barge delta 0, both scorers fire the two river
rules independently (adding to river_score = 40), score rail and barge 0,
produce composite 40 with primary driver river, and classify the boundary
composite 40 as LOW (not MODERATE, since the MODERATE tier requires
`total > 40`). -/
theorem C4_clean_river_scenario :
    (generate_risk (-3) (some (-1/2)) 0 0) =
      { risk_score := 40, risk_level := "LOW", primary_driver := "river",
        drivers := [("river", 40), ("rail", 0), ("barge", 0)] } ∧
    compute_daily_risk 100 [(100, -1/2), (93, 5/2)] [] [] = (40, "LOW", "river") := by
  constructor
  · simp [generate_risk, river_score_of, rail_score_of, barge_score_of, clamp,
      riskLevel, pick_primary, max_by_first, max_step, min_def, max_def]
    norm_num [List.foldl, max_step]
  · simp [compute_daily_risk, bf_river_score, bf_driver_list, river_delta, dict_get,
      rail_delta, barge_delta, get_as_of, rail_score_of, barge_score_of, riskLevel,
      pick_primary, max_by_first, max_step, min_def, List.find?]
    norm_num [List.foldl, max_step]

end SupplyChain

namespace SupplyChain

/-- Equation lemma: Python `max` starting with no current maximum adopts the
first element. -/
theorem max_step_none (y : String × ℚ) : max_step none y = some y := rfl

/-- Equation lemma: Python `max` replaces the running maximum only when the
next key is strictly greater. -/
theorem max_step_some (m y : String × ℚ) :
    max_step (some m) y = if y.2 > m.2 then some y else some m := rfl

/-- A running maximum at least as large as every remaining key survives the
rest of the scan. -/
theorem foldl_max_step_keep (m : String × ℚ) (l : List (String × ℚ))
    (h : ∀ y ∈ l, y.2 ≤ m.2) : l.foldl max_step (some m) = some m := by
  induction l with
  | nil => rfl
  | cons a t ih =>
    rw [List.foldl_cons, max_step_some, if_neg (not_lt.mpr (h a (List.mem_cons_self a t)))]
    exact ih (fun y hy => h y (List.mem_cons_of_mem a hy))

/-- The element strictly greater than everything before it and at least as
large as everything after it is the scan result, for any admissible starting
accumulator. -/
theorem foldl_max_step_mid (x : String × ℚ) (l2 : List (String × ℚ))
    (h2 : ∀ y ∈ l2, y.2 ≤ x.2) :
    ∀ (l1 : List (String × ℚ)) (acc : Option (String × ℚ)),
      (∀ y ∈ l1, y.2 < x.2) →
      (acc = none ∨ ∃ m, acc = some m ∧ m.2 < x.2) →
      (l1 ++ x :: l2).foldl max_step acc = some x := by
  intro l1
  induction l1 with
  | nil =>
    intro acc h1 hacc
    have hstep : max_step acc x = some x := by
      rcases hacc with rfl | ⟨m, rfl, hm⟩
      · rfl
      · rw [max_step_some, if_pos hm]
    rw [List.nil_append, List.foldl_cons, hstep]
    exact foldl_max_step_keep x l2 h2
  | cons a t ih =>
    intro acc h1 hacc
    rw [List.cons_append, List.foldl_cons]
    refine ih (max_step acc a) (fun y hy => h1 y (List.mem_cons_of_mem a hy)) ?_
    have ha : a.2 < x.2 := h1 a (List.mem_cons_self a t)
    rcases hacc with rfl | ⟨m, rfl, hm⟩
    · exact Or.inr ⟨a, rfl, ha⟩
    · rw [max_step_some]
      split_ifs
      · exact Or.inr ⟨a, rfl, ha⟩
      · exact Or.inr ⟨m, rfl, hm⟩

/-- First-maximum semantics of the Python `max`-based primary selection: the
driver strictly above everything listed before it and at least as high as
everything after it is picked. -/
theorem pick_primary_first_max (l1 : List (String × ℚ)) (x : String × ℚ)
    (l2 : List (String × ℚ)) (h1 : ∀ y ∈ l1, y.2 < x.2) (h2 : ∀ y ∈ l2, y.2 ≤ x.2) :
    pick_primary (l1 ++ x :: l2) = x.1 := by
  unfold pick_primary max_by_first
  rw [foldl_max_step_mid x l2 h2 l1 none h1 (Or.inl rfl)]

/-- Membership in a conditional singleton list forces equality with its
element. -/
theorem mem_if_singleton {c : Prop} [Decidable c] {a y : String × ℚ}
    (h : y ∈ (if c then [a] else [])) : y = a := by
  split_ifs at h
  · simpa using h
  · exact absurd h (by simp)

/-- C2 counterexample: a snapshot-scorer run in which no driver scored more
than 0 points (all status inputs empty or neutral) reports primary driver
"river", not the sentinel "none": generate_risk.py appends all three drivers
unconditionally, so the `if drivers:` guard is always true and `max` returns
the first of the all-zero scores. -/
theorem C2_primary_counterexample :
    (generate_risk 0 none 0 0).drivers = [("river", 0), ("rail", 0), ("barge", 0)] ∧
    (generate_risk 0 none 0 0).primary_driver = "river" ∧
    (generate_risk 0 none 0 0).primary_driver ≠ "none" := by
  have hd : (generate_risk 0 none 0 0).drivers = [("river", 0), ("rail", 0), ("barge", 0)] := by
    simp [generate_risk, river_score_of, rail_score_of, barge_score_of]
    norm_num
  have hp : (generate_risk 0 none 0 0).primary_driver = "river" := by
    simp [generate_risk, river_score_of, rail_score_of, barge_score_of,
      pick_primary, max_by_first, max_step, List.foldl]
    norm_num
  exact ⟨hd, hp, by rw [hp]; decide⟩

/-- C2 (amended): the primary driver is the driver with the strictly maximum
score, ties broken by evaluation order river, rail, barge (first maximum
encountered wins) — in both scorers. When no driver scored strictly more than
0 points the two scorers differ: the backfill scorer (whose driver list only
contains drivers with positive scores) reports the sentinel "none", while the
snapshot scorer of generate_risk.py (whose driver list always contains all
three) reports "river", the first of the all-zero entries. -/
theorem C2_primary_driver (r rr b : ℚ) :
    (r ≤ 0 → rr ≤ 0 → b ≤ 0 → pick_primary (bf_driver_list r rr b) = "none") ∧
    (r = 0 → rr = 0 → b = 0 →
      pick_primary [("river", r), ("rail", rr), ("barge", b)] = "river") ∧
    (0 < r → rr ≤ r → b ≤ r →
      pick_primary (bf_driver_list r rr b) = "river" ∧
      pick_primary [("river", r), ("rail", rr), ("barge", b)] = "river") ∧
    (0 < rr → r < rr → b ≤ rr →
      pick_primary (bf_driver_list r rr b) = "rail" ∧
      pick_primary [("river", r), ("rail", rr), ("barge", b)] = "rail") ∧
    (0 < b → r < b → rr < b →
      pick_primary (bf_driver_list r rr b) = "barge" ∧
      pick_primary [("river", r), ("rail", rr), ("barge", b)] = "barge") := by
  refine ⟨fun h1 h2 h3 => ?_, fun h1 h2 h3 => ?_, fun h1 h2 h3 => ⟨?_, ?_⟩,
    fun h1 h2 h3 => ⟨?_, ?_⟩, fun h1 h2 h3 => ⟨?_, ?_⟩⟩
  · unfold bf_driver_list
    rw [if_neg (not_lt.mpr h1), if_neg (not_lt.mpr h2), if_neg (not_lt.mpr h3)]
    rfl
  · subst h1; subst h2; subst h3
    exact pick_primary_first_max [] ("river", 0) [("rail", 0), ("barge", 0)]
      (by intro y hy; simp at hy)
      (by intro y hy
          simp only [List.mem_cons, List.not_mem_nil, or_false] at hy
          rcases hy with rfl | rfl <;> simp)
  · unfold bf_driver_list
    have hsh : ((if r > 0 then [("river", r)] else []) ++
          (if rr > 0 then [("rail", rr)] else [])) ++ (if b > 0 then [("barge", b)] else []) =
        [] ++ ("river", r) :: ((if rr > 0 then [("rail", rr)] else []) ++
          (if b > 0 then [("barge", b)] else [])) := by
      rw [if_pos h1, List.append_assoc]
      rfl
    rw [hsh]
    refine pick_primary_first_max [] ("river", r) _ (by intro y hy; simp at hy) ?_
    intro y hy
    rcases List.mem_append.mp hy with hm | hm
    · rw [mem_if_singleton hm]
      simpa using h2
    · rw [mem_if_singleton hm]
      simpa using h3
  · exact pick_primary_first_max [] ("river", r) [("rail", rr), ("barge", b)]
      (by intro y hy; simp at hy)
      (by intro y hy
          simp only [List.mem_cons, List.not_mem_nil, or_false] at hy
          rcases hy with rfl | rfl <;> simpa)
  · unfold bf_driver_list
    have hsh : ((if r > 0 then [("river", r)] else []) ++
          (if rr > 0 then [("rail", rr)] else [])) ++ (if b > 0 then [("barge", b)] else []) =
        (if r > 0 then [("river", r)] else []) ++ ("rail", rr) ::
          (if b > 0 then [("barge", b)] else []) := by
      rw [if_pos h1, List.append_assoc]
      rfl
    rw [hsh]
    refine pick_primary_first_max _ ("rail", rr) _ ?_ ?_
    · intro y hy
      rw [mem_if_singleton hy]
      simpa using h2
    · intro y hy
      rw [mem_if_singleton hy]
      simpa using h3
  · exact pick_primary_first_max [("river", r)] ("rail", rr) [("barge", b)]
      (by intro y hy
          simp only [List.mem_cons, List.not_mem_nil, or_false] at hy
          subst hy; simpa using h2)
      (by intro y hy
          simp only [List.mem_cons, List.not_mem_nil, or_false] at hy
          subst hy; simpa using h3)
  · unfold bf_driver_list
    rw [if_pos h1]
    refine pick_primary_first_max _ ("barge", b) [] ?_ (by intro y hy; simp at hy)
    intro y hy
    rcases List.mem_append.mp hy with hm | hm
    · rw [mem_if_singleton hm]
      simpa using h2
    · rw [mem_if_singleton hm]
      simpa using h3
  · exact pick_primary_first_max [("river", r), ("rail", rr)] ("barge", b) []
      (by intro y hy
          simp only [List.mem_cons, List.not_mem_nil, or_false] at hy
          rcases hy with rfl | rfl <;> simpa)
      (by intro y hy; simp at hy)

/-- C2 witness: a backfill run with river at 40 and the others at 0 picks
river, and a run with all scores nonpositive picks the sentinel. -/
theorem C2_primary_driver_witness :
    (0 : ℚ) < 40 ∧ (0 : ℚ) ≤ 40 ∧
    pick_primary (bf_driver_list 40 0 0) = "river" ∧
    pick_primary (bf_driver_list 0 0 0) = "none" :=
  ⟨by norm_num, by norm_num,
    ((C2_primary_driver 40 0 0).2.2.1 (by norm_num) (by norm_num) (by norm_num)).1,
    (C2_primary_driver 0 0 0).1 le_rfl le_rfl le_rfl⟩

end SupplyChain

namespace SupplyChain

/-- Last element of a list sorted ascending by date bounds every element. -/
theorem pairwise_le_getLast {L : List (Int × ℚ)}
    (hp : L.Pairwise (fun a b => a.1 ≤ b.1)) (hL : L ≠ []) :
    ∀ x ∈ L, x.1 ≤ (L.getLast hL).1 := by
  induction L with
  | nil => exact absurd rfl hL
  | cons a t ih =>
    intro x hx
    rcases List.pairwise_cons.mp hp with ⟨ha, ht⟩
    cases t with
    | nil =>
      simp only [List.mem_singleton] at hx
      subst hx
      exact le_refl _
    | cons b u =>
      rw [List.getLast_cons (by simp)]
      rcases List.mem_cons.mp hx with rfl | hx
      · exact le_trans (ha _ (List.getLast_mem _)) (le_refl _)
      · exact ih ht (by simp) x hx

/-- Equation lemma for `get_as_of` on a nonempty frame. -/
theorem get_as_of_cons (h : Int × ℚ) (t : List (Int × ℚ)) (d : Int) :
    get_as_of (h :: t) d =
      match ((h :: t).filter (fun r => decide (r.1 ≤ d))).getLast? with
      | none => h.2
      | some r => r.2 := rfl

/-- C5 counterexample: on the empty series the as-of lookup returns the
concrete float 0.0 — its return type is a float and it never returns
None/absent, contrary to the claim's third clause. -/
theorem C5_empty_counterexample : get_as_of [] 0 = 0 := rfl

/-- C5 (amended): for every date-sorted series and target date, the as-of
lookup returns the value of the latest observation with date at most the
target; if the series is non-empty but no observation is at or before the
target it returns the earliest available value; and when the series itself is
empty it returns the neutral value 0.0 (the function always returns a float,
never None/absent). -/
theorem C5_as_of_lookup (df : List (Int × ℚ)) (d : Int)
    (hs : df.Pairwise (fun a b => a.1 ≤ b.1)) :
    (df = [] → get_as_of df d = 0) ∧
    ((∃ r ∈ df, r.1 ≤ d) →
      ∃ s ∈ df, s.1 ≤ d ∧ (∀ t ∈ df, t.1 ≤ d → t.1 ≤ s.1) ∧ get_as_of df d = s.2) ∧
    (df ≠ [] → (∀ r ∈ df, d < r.1) → ∃ s ∈ df,
      (∀ t ∈ df, s.1 ≤ t.1) ∧ get_as_of df d = s.2) := by
  refine ⟨fun he => by subst he; rfl, fun hex => ?_, fun hne hall => ?_⟩
  · cases df with
    | nil => rcases hex with ⟨r, hr, _⟩; exact absurd hr (by simp)
    | cons h t =>
      set F := (h :: t).filter (fun r => decide (r.1 ≤ d)) with hF
      have hFne : F ≠ [] := by
        rcases hex with ⟨r, hr, hrd⟩
        exact List.ne_nil_of_mem (List.mem_filter_of_mem hr (by simpa using hrd))
      have hFp : F.Pairwise (fun a b => a.1 ≤ b.1) := hs.sublist (List.filter_sublist _)
      refine ⟨F.getLast hFne, ?_, ?_, ?_, ?_⟩
      · exact List.mem_of_mem_filter (List.getLast_mem hFne)
      · have := List.of_mem_filter (List.getLast_mem hFne)
        simpa using this
      · intro x hx hxd
        exact pairwise_le_getLast hFp hFne x (List.mem_filter_of_mem hx (by simpa using hxd))
      · rw [get_as_of_cons, ← hF, List.getLast?_eq_getLast_of_ne_nil hFne]
  · cases df with
    | nil => exact absurd rfl hne
    | cons h t =>
      have hF : (h :: t).filter (fun r => decide (r.1 ≤ d)) = [] := by
        rw [List.filter_eq_nil_iff]
        intro x hx
        simpa using not_le.mpr (hall x hx)
      refine ⟨h, List.mem_cons_self _ _, ?_, ?_⟩
      · intro x hx
        rcases List.mem_cons.mp hx with rfl | hx
        · exact le_refl _
        · exact (List.pairwise_cons.mp hs).1 x hx
      · rw [get_as_of_cons, hF]
        rfl

/-- C5 witness: the amended lookup applied to the sorted two-row series
`[(1, 10), (3, 20)]` at target date 2 returns the value of the latest row at
or before the target. -/
theorem C5_as_of_lookup_witness :
    ∃ s ∈ [((1 : Int), (10 : ℚ)), (3, 20)], s.1 ≤ 2 ∧
      (∀ t ∈ [((1 : Int), (10 : ℚ)), (3, 20)], t.1 ≤ 2 → t.1 ≤ s.1) ∧
      get_as_of [((1 : Int), (10 : ℚ)), (3, 20)] 2 = s.2 :=
  (C5_as_of_lookup [(1, 10), (3, 20)] 2 (by decide)).2.1 ⟨(1, 10), by simp, by norm_num⟩

/-- C8: whenever either as-of lookup feeding a fixed-lag delta is unavailable
the delta is exactly 0.0 and no exception is raised (every embedded function
is total): the river delta is 0 when the target day or the day 7 days earlier
is missing from the river dict, and the rail and barge 28-day deltas are 0 on
an empty series because each of the two lookups degrades to the neutral 0. -/
theorem C8_neutral_deltas :
    (∀ (hist : List (Int × ℚ)) (t : Int),
      dict_get hist t = none ∨ dict_get hist (t - 7) = none → river_delta hist t = 0) ∧
    (∀ t : Int, rail_delta [] t = 0 ∧ barge_delta [] t = 0) := by
  constructor
  · intro hist t h
    unfold river_delta
    rcases h with h | h
    · rw [h]
    · rw [h]
      cases dict_get hist t <;> rfl
  · intro t
    constructor <;> norm_num [rail_delta, barge_delta, get_as_of]

/-- C8 witness: on the empty river dict and empty rail and barge series at
target day 0, every delta degrades to the neutral 0. -/
theorem C8_neutral_deltas_witness :
    dict_get [] 0 = none ∧ river_delta [] 0 = 0 ∧
    rail_delta [] 0 = 0 ∧ barge_delta [] 0 = 0 :=
  ⟨rfl, C8_neutral_deltas.1 [] 0 (Or.inl rfl),
    (C8_neutral_deltas.2 0).1, (C8_neutral_deltas.2 0).2⟩

end SupplyChain

namespace SupplyChain

/-- Translation of `DAYS_BACK = 90` from backfill_risk.py. -/
def DAYS_BACK : Nat := 90

/-- Translation of the generation loop of backfill_risk.py lines 163-174:
`for i in range(DAYS_BACK): d = today - timedelta(days=(DAYS_BACK - i))`,
computing one risk row per iteration. The tuple result of
`compute_daily_risk` is always truthy in Python, so the `if res:` guard never
skips a day; each emitted row carries the day (the noon timestamp of the
source is represented by the day number) and the computed score triple. -/
def backfill_rows (today : Int) (river_hist rail_df barge_df : List (Int × ℚ)) :
    List (Int × ℚ × String × String) :=
  (List.range DAYS_BACK).map (fun (i : Nat) =>
    let d := today - ((DAYS_BACK : Int) - (i : Int))
    (d, compute_daily_risk d river_hist rail_df barge_df))

/-- Translation of the destination write of backfill_risk.py lines 176-181:
the output file is opened with mode "w", so the new rows replace the prior
table contents entirely. -/
def overwrite_table (_old new : List (Int × ℚ × String × String)) :
    List (Int × ℚ × String × String) := new

/-- C7: the backfill reconstruction emits exactly one row per calendar day in
the window from `today - DAYS_BACK` to `today - 1` inclusive (today itself
excluded): there are `DAYS_BACK` rows, their dates are strictly ascending
(hence pairwise distinct), a date occurs among the rows exactly when it lies
in the window, and the destination table is overwritten in full — the result
ignores whatever was stored before. -/
theorem C7_backfill_window (today : Int)
    (river_hist rail_df barge_df : List (Int × ℚ))
    (old : List (Int × ℚ × String × String)) :
    (backfill_rows today river_hist rail_df barge_df).length = DAYS_BACK ∧
    ((backfill_rows today river_hist rail_df barge_df).map (fun x => x.1)).Pairwise (· < ·) ∧
    (∀ dd : Int, dd ∈ (backfill_rows today river_hist rail_df barge_df).map (fun x => x.1) ↔
      today - DAYS_BACK ≤ dd ∧ dd < today) ∧
    overwrite_table old (backfill_rows today river_hist rail_df barge_df) =
      backfill_rows today river_hist rail_df barge_df := by
  have hdates : (backfill_rows today river_hist rail_df barge_df).map (fun x => x.1) =
      (List.range DAYS_BACK).map (fun (i : Nat) => today - (DAYS_BACK : Int) + (i : Int)) := by
    unfold backfill_rows
    rw [List.map_map]
    apply List.map_congr_left
    intro i hi
    have hi90 : i < 90 := by simpa [DAYS_BACK] using List.mem_range.mp hi
    simp only [Function.comp, DAYS_BACK]
    omega
  refine ⟨by simp [backfill_rows], ?_, ?_, rfl⟩
  · rw [hdates, List.pairwise_map]
    exact (List.pairwise_lt_range _).imp (fun h => by omega)
  · intro dd
    rw [hdates]
    simp only [List.mem_map, List.mem_range]
    constructor
    · rintro ⟨i, hi, rfl⟩
      simp only [DAYS_BACK] at hi ⊢
      omega
    · rintro ⟨h1, h2⟩
      refine ⟨(dd - (today - DAYS_BACK)).toNat, ?_, ?_⟩ <;>
        simp only [DAYS_BACK] at h1 h2 ⊢ <;> omega

end SupplyChain

namespace SupplyChain

/-! Embedding of the history merge shared by rail_monitor.py `update_hist`
(lines 237-244, key `(week_end_date, carrier)`) and barge_monitor.py
`update_history` (lines 119-126, key `week_end_date`, a degenerate second
component). A CSV row becomes a `Row`: the key columns as numbers (dates
compare chronologically, carriers in any fixed enumeration; the barge key
uses a constant dimension) and `value` standing for the remaining payload
columns. `pd.concat` is list append, `drop_duplicates(subset=keys,
keep="last")` keeps the last occurrence of each key in order, and
`sort_values(keys)` sorts ascending by key — after deduplication the keys
are pairwise distinct, so any correct sort produces the same row sequence
regardless of tie-breaking. -/

/-- History row: the dedup/sort key `(date, dimension)` plus the value
payload standing for the remaining columns. -/
structure Row where
  date : Nat
  dim : Nat
  value : ℚ
deriving DecidableEq

/-- Dedup and sort key of a row, `(date[, dimension])`. -/
def Row.key (r : Row) : Nat × Nat := (r.date, r.dim)

/-- Ascending lexicographic order on keys, as produced by
`sort_values(["week_end_date", "carrier"])`. -/
def keyLe (a b : Nat × Nat) : Prop := a.1 < b.1 ∨ (a.1 = b.1 ∧ a.2 ≤ b.2)

instance decKeyLe : DecidableRel keyLe := fun a b => by
  unfold keyLe
  infer_instance

/-- Row comparison by key. -/
def rowLe (a b : Row) : Prop := keyLe a.key b.key

instance decRowLe : DecidableRel rowLe := fun a b => by
  unfold rowLe
  infer_instance

theorem keyLe_total (a b : Nat × Nat) : keyLe a b ∨ keyLe b a := by
  unfold keyLe
  omega

theorem keyLe_trans {a b c : Nat × Nat} (h1 : keyLe a b) (h2 : keyLe b c) : keyLe a c := by
  unfold keyLe at *
  omega

theorem keyLe_antisymm {a b : Nat × Nat} (h1 : keyLe a b) (h2 : keyLe b a) : a = b := by
  unfold keyLe at *
  have ha : a.1 = b.1 ∧ a.2 = b.2 := by omega
  exact Prod.ext ha.1 ha.2

instance : IsTotal Row rowLe := ⟨fun a b => keyLe_total a.key b.key⟩

instance : IsTrans Row rowLe := ⟨fun _ _ _ h1 h2 => keyLe_trans h1 h2⟩

/-- Translation of `drop_duplicates(subset=keys, keep="last")`: a row is kept
exactly when no later row carries the same key, preserving the order of the
kept rows. -/
def dedupLast : List Row → List Row
  | [] => []
  | r :: rest =>
    if rest.any (fun s => decide (s.key = r.key)) then dedupLast rest
    else r :: dedupLast rest

/-- Translation of the merge shared by rail_monitor.py `update_hist` and
barge_monitor.py `update_history`: concatenate the existing history with the
incoming frame, deduplicate by key keeping the last (incoming) occurrence,
and sort ascending by key. -/
def update_hist (hist new : List Row) : List Row :=
  List.insertionSort rowLe (dedupLast (hist ++ new))

/-- Last row carrying a given key, the row `keep="last"` retains. -/
def lastWith (k : Nat × Nat) : List Row → Option Row
  | [] => none
  | r :: rest =>
    match lastWith k rest with
    | some s => some s
    | none => if r.key = k then some r else none
end SupplyChain


namespace SupplyChain

theorem lastWith_mem {k : Nat × Nat} {l : List Row} {s : Row}
    (h : lastWith k l = some s) : s ∈ l ∧ s.key = k := by
  induction l with
  | nil => exact absurd h (by simp [lastWith])
  | cons a t ih =>
    unfold lastWith at h
    cases hl : lastWith k t with
    | some s2 =>
      rw [hl] at h
      obtain rfl : s2 = s := by simpa using h
      rcases ih hl with ⟨hm, hk⟩
      exact ⟨List.mem_cons_of_mem a hm, hk⟩
    | none =>
      rw [hl] at h
      split_ifs at h with hk
      · obtain rfl : a = s := by simpa using h
        exact ⟨List.mem_cons_self a t, hk⟩

theorem lastWith_eq_none {k : Nat × Nat} {l : List Row} :
    lastWith k l = none ↔ ∀ s ∈ l, s.key ≠ k := by
  induction l with
  | nil => simp [lastWith]
  | cons a t ih =>
    unfold lastWith
    cases hl : lastWith k t with
    | some s2 =>
      simp only []
      constructor
      · intro h
        exact absurd h (by simp)
      · intro h
        rcases lastWith_mem hl with ⟨hm, hk⟩
        exact absurd hk (h s2 (List.mem_cons_of_mem a hm))
    | none =>
      simp only []
      constructor
      · intro h
        split_ifs at h with hk
        intro s hs
        rcases List.mem_cons.mp hs with rfl | hs
        · exact hk
        · exact (ih.mp hl) s hs
      · intro h
        rw [if_neg (h a (List.mem_cons_self a t))]

theorem dedupLast_subset {r : Row} : ∀ {l : List Row}, r ∈ dedupLast l → r ∈ l := by
  intro l
  induction l with
  | nil => exact fun h => h
  | cons a t ih =>
    unfold dedupLast
    split_ifs with hc
    · exact fun h => List.mem_cons_of_mem a (ih h)
    · intro h
      rcases List.mem_cons.mp h with rfl | h
      · exact List.mem_cons_self r t
      · exact List.mem_cons_of_mem a (ih h)

theorem lastWith_cons (k : Nat × Nat) (a : Row) (t : List Row) :
    lastWith k (a :: t) =
      match lastWith k t with
      | some s => some s
      | none => if a.key = k then some a else none := rfl

theorem mem_dedupLast {r : Row} : ∀ {l : List Row},
    r ∈ dedupLast l ↔ lastWith r.key l = some r := by
  intro l
  induction l with
  | nil => simp [dedupLast, lastWith]
  | cons a t ih =>
    rw [lastWith_cons]
    unfold dedupLast
    by_cases hany : (t.any (fun s => decide (s.key = a.key))) = true
    · rw [if_pos hany]
      have hex : ∃ s ∈ t, s.key = a.key := by
        simpa [List.any_eq_true] using hany
      cases hl : lastWith r.key t with
      | some s2 => rw [ih, hl]
      | none =>
        rw [ih, hl]
        have hne : a.key ≠ r.key := by
          intro hk
          rcases hex with ⟨s, hs, hsk⟩
          exact (lastWith_eq_none.mp hl s hs) (hsk.trans hk)
        simp [hne]
    · rw [if_neg hany]
      have hnone : ∀ s ∈ t, s.key ≠ a.key := by
        intro s hs hk
        exact hany (by simpa [List.any_eq_true] using ⟨s, hs, hk⟩)
      cases hl : lastWith r.key t with
      | some s2 =>
        have hs2 := lastWith_mem hl
        rw [List.mem_cons, ih, hl]
        constructor
        · rintro (rfl | h)
          · exact absurd hs2.2 (hnone s2 hs2.1)
          · exact h
        · intro h
          exact Or.inr h
      | none =>
        rw [List.mem_cons, ih, hl]
        constructor
        · rintro (rfl | h)
          all_goals first
            | (exact absurd h (by simp))
            | simp
        · intro h
          have h2 : (if a.key = r.key then some a else none) = some r := h
          split_ifs at h2 with hk
          exact Or.inl (by simpa using h2.symm)

theorem dedupLast_keys_nodup : ∀ (l : List Row), ((dedupLast l).map Row.key).Nodup := by
  intro l
  induction l with
  | nil => simp [dedupLast]
  | cons a t ih =>
    unfold dedupLast
    split_ifs with hc
    · exact ih
    · rw [List.map_cons]
      refine List.Nodup.cons ?_ ih
      intro hmem
      rcases List.mem_map.mp hmem with ⟨s, hs, hsk⟩
      exact hc (by simpa [List.any_eq_true] using ⟨s, dedupLast_subset hs, hsk⟩)

theorem lastWith_append (k : Nat × Nat) (l1 l2 : List Row) :
    lastWith k (l1 ++ l2) =
      match lastWith k l2 with
      | some s => some s
      | none => lastWith k l1 := by
  induction l1 with
  | nil =>
    rw [List.nil_append]
    cases lastWith k l2 <;> rfl
  | cons a t ih =>
    rw [List.cons_append, lastWith_cons, ih, lastWith_cons]
    cases lastWith k l2 <;> cases lastWith k t <;> rfl

theorem lastWith_of_nodup {k : Nat × Nat} {l : List Row} {r : Row}
    (hnd : (l.map Row.key).Nodup) (hm : r ∈ l) (hk : r.key = k) :
    lastWith k l = some r := by
  induction l with
  | nil => exact absurd hm (by simp)
  | cons a t ih =>
    rw [List.map_cons] at hnd
    rcases List.nodup_cons.mp hnd with ⟨hka, hnt⟩
    unfold lastWith
    rcases List.mem_cons.mp hm with rfl | hm
    · have hnone : lastWith k t = none := by
        rw [lastWith_eq_none]
        intro s hs hsk
        exact hka (List.mem_map.mpr ⟨s, hs, hsk.trans hk.symm⟩)
      rw [hnone, if_pos hk]
    · rw [ih hnt hm]

theorem update_hist_keys_nodup (hist new : List Row) :
    ((update_hist hist new).map Row.key).Nodup := by
  unfold update_hist
  exact (((List.perm_insertionSort rowLe (dedupLast (hist ++ new))).map Row.key).nodup_iff).mpr
    (dedupLast_keys_nodup _)

theorem sorted_nodup_keys_eq : ∀ (l1 l2 : List Row), List.Perm l1 l2 →
    l1.Sorted rowLe → l2.Sorted rowLe → ((l1.map Row.key).Nodup) → l1 = l2 := by
  intro l1
  induction l1 with
  | nil =>
    intro l2 hp _ _ _
    exact hp.nil_eq
  | cons a t ih =>
    intro l2 hp hs1 hs2 hnd
    cases l2 with
    | nil => exact absurd hp.symm.nil_eq (by simp)
    | cons b u =>
      have hab : a = b := by
        have haIn : a ∈ b :: u := hp.mem_iff.mp (List.mem_cons_self a t)
        have hbIn : b ∈ a :: t := hp.mem_iff.mpr (List.mem_cons_self b u)
        rcases List.mem_cons.mp haIn with h1 | h1
        · exact h1
        · rcases List.mem_cons.mp hbIn with h2 | h2
          · exact h2.symm
          · have hba : rowLe b a := (List.sorted_cons.mp hs2).1 a h1
            have hab2 : rowLe a b := (List.sorted_cons.mp hs1).1 b h2
            have hk : a.key = b.key := keyLe_antisymm hab2 hba
            exfalso
            have hnd2 : (a.key :: t.map Row.key).Nodup := hnd
            exact (List.nodup_cons.mp hnd2).1 (List.mem_map.mpr ⟨b, h2, hk.symm⟩)
      subst hab
      have hp2 : List.Perm t u := hp.cons_inv
      have hnd2 : (a.key :: t.map Row.key).Nodup := hnd
      rw [ih u hp2 (List.sorted_cons.mp hs1).2 (List.sorted_cons.mp hs2).2
        (List.nodup_cons.mp hnd2).2]

/-- C6: the history merge is idempotent in the incoming data — merging the
incoming frame a second time into the already-merged table yields exactly the
same stored row sequence (dedup by key with the incoming row winning,
followed by the ascending sort by key). -/
theorem C6_merge_idempotent (S N : List Row) :
    update_hist (update_hist S N) N = update_hist S N := by
  have hMperm : List.Perm (update_hist S N) (dedupLast (S ++ N)) :=
    List.perm_insertionSort rowLe (dedupLast (S ++ N))
  have hMkeys : ((update_hist S N).map Row.key).Nodup := update_hist_keys_nodup S N
  have hlast : ∀ r : Row, lastWith r.key (update_hist S N ++ N) = some r ↔
      lastWith r.key (S ++ N) = some r := by
    intro r
    rw [lastWith_append, lastWith_append]
    cases hN : lastWith r.key N with
    | some s => exact Iff.rfl
    | none =>
      constructor
      · intro h
        have hm := (lastWith_mem h).1
        have hrd : r ∈ dedupLast (S ++ N) := hMperm.mem_iff.mp hm
        have hSN := mem_dedupLast.mp hrd
        rw [lastWith_append, hN] at hSN
        exact hSN
      · intro h
        have hSN : lastWith r.key (S ++ N) = some r := by
          rw [lastWith_append, hN]
          exact h
        have hrd : r ∈ dedupLast (S ++ N) := mem_dedupLast.mpr hSN
        have hrM : r ∈ update_hist S N := hMperm.mem_iff.mpr hrd
        exact lastWith_of_nodup hMkeys hrM rfl
  have hmemiff : ∀ r, r ∈ dedupLast (update_hist S N ++ N) ↔ r ∈ dedupLast (S ++ N) := by
    intro r
    rw [mem_dedupLast, mem_dedupLast]
    exact hlast r
  have hnd1 : (dedupLast (update_hist S N ++ N)).Nodup :=
    List.Nodup.of_map _ (dedupLast_keys_nodup _)
  have hnd2 : (dedupLast (S ++ N)).Nodup :=
    List.Nodup.of_map _ (dedupLast_keys_nodup _)
  have hperm : List.Perm (dedupLast (update_hist S N ++ N)) (dedupLast (S ++ N)) :=
    (List.perm_ext_iff_of_nodup hnd1 hnd2).mpr hmemiff
  refine sorted_nodup_keys_eq _ _ ?_ ?_ ?_ ?_
  · exact (List.perm_insertionSort rowLe _).trans (hperm.trans hMperm.symm)
  · exact List.sorted_insertionSort rowLe _
  · exact List.sorted_insertionSort rowLe _
  · exact (((List.perm_insertionSort rowLe _).map Row.key).nodup_iff).mpr
      (dedupLast_keys_nodup _)

theorem dedupLast_append_single {z : Row} : ∀ {hist : List Row},
    z.key ∉ hist.map Row.key → dedupLast (hist ++ [z]) = dedupLast hist ++ [z] := by
  intro hist
  induction hist with
  | nil => intro _; rfl
  | cons a t ih =>
    intro hz
    rw [List.map_cons] at hz
    have hza : z.key ≠ a.key := fun hk => hz (by simp [hk])
    have hzt : z.key ∉ t.map Row.key := fun hk => hz (by simp [hk])
    rw [List.cons_append]
    unfold dedupLast
    have hcond : ((t ++ [z]).any (fun s => decide (s.key = a.key))) =
        (t.any (fun s => decide (s.key = a.key))) := by
      rw [List.any_append]
      simp [hza]
    rw [hcond]
    split_ifs with hc
    · exact ih hzt
    · rw [ih hzt, List.cons_append]

theorem orderedInsert_append_single {a z : Row} (haz : rowLe a z) :
    ∀ (m : List Row),
      List.orderedInsert rowLe a (m ++ [z]) = List.orderedInsert rowLe a m ++ [z] := by
  intro m
  induction m with
  | nil =>
    show List.orderedInsert rowLe a [z] = [a, z]
    unfold List.orderedInsert
    rw [if_pos haz]
  | cons b m2 ih =>
    rw [List.cons_append]
    unfold List.orderedInsert
    split_ifs with hab
    · rw [List.cons_append, List.cons_append]
    · rw [ih, List.cons_append]

theorem insertionSort_append_single {z : Row} : ∀ {l : List Row},
    (∀ r ∈ l, rowLe r z) →
    List.insertionSort rowLe (l ++ [z]) = List.insertionSort rowLe l ++ [z] := by
  intro l
  induction l with
  | nil => intro _; rfl
  | cons a t ih =>
    intro h
    rw [List.cons_append]
    show List.orderedInsert rowLe a (List.insertionSort rowLe (t ++ [z])) = _
    rw [ih (fun r hr => h r (List.mem_cons_of_mem a hr)),
      orderedInsert_append_single (h a (List.mem_cons_self a t))]
    rfl

/-- C9 (amended): the merge performs no placeholder suppression — an
incoming single most-recent row whose key is strictly greater than every
existing key is retained as the last row of the merged series whatever its
value (in particular an exact zero after a predominantly non-zero tail), and
the merge records no note (it returns only the merged frame). -/
theorem C9_no_suppression (hist : List Row) (z : Row)
    (h : ∀ r ∈ hist, rowLe r z ∧ r.key ≠ z.key) :
    (update_hist hist [z]).getLast? = some z := by
  unfold update_hist
  have hz : z.key ∉ hist.map Row.key := by
    intro hk
    rcases List.mem_map.mp hk with ⟨r, hr, hrk⟩
    exact (h r hr).2 hrk
  rw [dedupLast_append_single hz,
    insertionSort_append_single (fun r hr => (h r (dedupLast_subset hr)).1),
    List.getLast?_concat]

/-- Scenario history of the placeholder-suppression spec example: nine
weekly rows with values 60, 65, 70, 55, 80, 90, 100, 310, 295. -/
def barge_hist_example : List Row :=
  [⟨1, 0, 60⟩, ⟨2, 0, 65⟩, ⟨3, 0, 70⟩, ⟨4, 0, 55⟩, ⟨5, 0, 80⟩,
    ⟨6, 0, 90⟩, ⟨7, 0, 100⟩, ⟨8, 0, 310⟩, ⟨9, 0, 295⟩]

/-- Newest incoming row carrying the exact value zero. -/
def zero_row : Row := ⟨10, 0, 0⟩

/-- C9 counterexample: on the spec scenario history (tail `.., 310, 295`
after seven values of median at least 50) merged with a single newest
zero-valued row, the merged series keeps the zero row as its final row — it
is not dropped, and no note exists anywhere in the merge output. -/
theorem C9_zero_retained_counterexample :
    (update_hist barge_hist_example [zero_row]).getLast? = some zero_row ∧
    zero_row.value = 0 := ⟨rfl, rfl⟩

/-- C9 witness: the amended no-suppression theorem applied to the concrete
scenario history and trailing zero row. -/
theorem C9_no_suppression_witness :
    (∀ r ∈ barge_hist_example, rowLe r zero_row ∧ r.key ≠ zero_row.key) ∧
    (update_hist barge_hist_example [zero_row]).getLast? = some zero_row :=
  ⟨by decide, C9_no_suppression barge_hist_example zero_row (by decide)⟩

end SupplyChain


namespace SupplyChain

/-! Embedding of rail_monitor.py `metric_delta_4w` (lines 247-255). A rail
history row keeps the `week_end_date` (as a day number), the carrier and the
two metric columns; a metric cell that `pd.to_numeric(errors="coerce")`
cannot parse is `none` and is dropped like a NaN by `dropna`. The melt step
(rail_monitor.py line 170) writes carriers upper-cased and canonical, so the
redundant `.str.upper()` in the carrier filter is the identity on stored data
and the model compares carriers directly. -/

structure RailRow where
  week_end_date : Nat
  carrier : String
  train_speed_mph : Option ℚ
  terminal_dwell_hours : Option ℚ
deriving DecidableEq

/-- Ascending order on `(week_end_date, value)` rows used by
`sort_values("week_end_date")`. -/
def pairLe (a b : Nat × ℚ) : Prop := a.1 ≤ b.1

instance decPairLe : DecidableRel pairLe := fun a b => by
  unfold pairLe
  infer_instance

instance : IsTotal (Nat × ℚ) pairLe := ⟨fun a b => by unfold pairLe; omega⟩

instance : IsTrans (Nat × ℚ) pairLe := ⟨fun a b c h1 h2 => by unfold pairLe at *; omega⟩

/-- Translation of `sort_values("week_end_date")` on the projected rows. -/
def sortPairs (l : List (Nat × ℚ)) : List (Nat × ℚ) := List.insertionSort pairLe l

/-- Rows of the requested carrier whose metric cell parses, projected to
`(week_end_date, value)` — the frame after the carrier filter, `to_numeric`
and `dropna` of metric_delta_4w, before sorting. -/
def rail_eligible (df : List RailRow) (c : String) (metric : RailRow → Option ℚ) :
    List (Nat × ℚ) :=
  (df.filter (fun r => r.carrier == c)).filterMap
    (fun r => (metric r).map (fun v => (r.week_end_date, v)))

/-- Translation of `metric_delta_4w` from rail_monitor.py lines 247-255:
empty carrier selection returns None; otherwise coerce the metric column,
drop unparseable rows, sort by week_end_date, return None when fewer than 5
rows remain, and otherwise return `iloc[-1] - iloc[-5]` — the last row minus
the fifth-from-last row positionally. -/
def metric_delta_4w (df : List RailRow) (c : String) (metric : RailRow → Option ℚ) :
    Option ℚ :=
  if (df.filter (fun r => r.carrier == c)).isEmpty then none
  else if (sortPairs (rail_eligible df c metric)).length < 5 then none
  else some
    (((sortPairs (rail_eligible df c metric)).getD
        ((sortPairs (rail_eligible df c metric)).length - 1) (0, 0)).2 -
      ((sortPairs (rail_eligible df c metric)).getD
        ((sortPairs (rail_eligible df c metric)).length - 5) (0, 0)).2)

/-- Projecting parseable rows to pairs keeps one entry per parseable cell. -/
theorem filterMap_pair_length (metric : RailRow → Option ℚ) (l : List RailRow) :
    (l.filterMap (fun r => (metric r).map (fun v => (r.week_end_date, v)))).length =
      (l.filterMap metric).length := by
  induction l with
  | nil => rfl
  | cons a t ih => cases h : metric a <;> simp [List.filterMap_cons, h, ih]

/-- The sorted eligible frame has exactly one row per parseable metric cell
of the selected carrier. -/
theorem rail_sorted_length (df : List RailRow) (c : String) (metric : RailRow → Option ℚ) :
    (sortPairs (rail_eligible df c metric)).length =
      ((df.filter (fun r => r.carrier == c)).filterMap metric).length := by
  unfold sortPairs
  rw [(List.perm_insertionSort pairLe _).length_eq]
  exact filterMap_pair_length metric _

/-- Concrete rail history: five parseable UP dwell rows on consecutive days
1 to 5 (values 10..50), one BNSF row, and one UP row with an unparseable
dwell cell. -/
def rail_example : List RailRow :=
  [⟨1, "UP", some 1, some 10⟩, ⟨2, "UP", none, some 20⟩, ⟨3, "UP", some 3, some 30⟩,
    ⟨4, "UP", none, some 40⟩, ⟨5, "UP", none, some 50⟩, ⟨3, "BNSF", none, some 999⟩,
    ⟨6, "UP", none, none⟩]

/-- C10: metric_delta_4w returns None exactly when the carrier has fewer
than 5 rows with a parseable numeric value for the metric; with at least 5 it
returns the last value minus the fifth-from-last value of the rows sorted by
week_end_date — a positional row-count lag, not a date-based 28-day as-of
difference, as the concrete five-consecutive-day example (delta 40 across 4
calendar days) shows. -/
theorem C10_metric_delta_4w (df : List RailRow) (c : String) (metric : RailRow → Option ℚ) :
    (metric_delta_4w df c metric = none ↔
      ((df.filter (fun r => r.carrier == c)).filterMap metric).length < 5) ∧
    (∀ h5 : 5 ≤ (sortPairs (rail_eligible df c metric)).length,
      metric_delta_4w df c metric = some
        (((sortPairs (rail_eligible df c metric)).get
            ⟨(sortPairs (rail_eligible df c metric)).length - 1, by omega⟩).2 -
          ((sortPairs (rail_eligible df c metric)).get
            ⟨(sortPairs (rail_eligible df c metric)).length - 5, by omega⟩).2)) ∧
    metric_delta_4w rail_example "UP" (fun r => r.terminal_dwell_hours) = some 40 := by
  refine ⟨?_, ?_, ?_⟩
  · unfold metric_delta_4w
    split_ifs with h0 h5
    · have hf : df.filter (fun r => r.carrier == c) = [] := by
        simpa using h0
      simp [hf]
    · rw [rail_sorted_length] at h5
      simp [h5]
    · rw [rail_sorted_length] at h5
      simp [h5]
  · intro h5
    unfold metric_delta_4w
    have h0 : ¬(df.filter (fun r => r.carrier == c)).isEmpty = true := by
      intro h0
      have hf : df.filter (fun r => r.carrier == c) = [] := by simpa using h0
      rw [rail_sorted_length, hf] at h5
      simp at h5
    rw [if_neg h0, if_neg (by omega)]
    congr 1
    have hlt1 : (sortPairs (rail_eligible df c metric)).length - 1 <
        (sortPairs (rail_eligible df c metric)).length := by omega
    have hlt5 : (sortPairs (rail_eligible df c metric)).length - 5 <
        (sortPairs (rail_eligible df c metric)).length := by omega
    rw [List.getD_eq_getElem?_getD, List.getD_eq_getElem?_getD,
      List.getElem?_eq_getElem hlt1, List.getElem?_eq_getElem hlt5]
    simp
  · norm_num [metric_delta_4w, rail_example, rail_eligible, sortPairs,
      List.insertionSort, List.orderedInsert, pairLe, List.filterMap_cons, List.getD]

/-- C10 witness: the positional characterization applied to the concrete
example table, whose sorted eligible frame has exactly 5 rows. -/
theorem C10_metric_delta_4w_witness :
    5 ≤ (sortPairs (rail_eligible rail_example "UP" (fun r => r.terminal_dwell_hours))).length ∧
    metric_delta_4w rail_example "UP" (fun r => r.terminal_dwell_hours) = some
      (((sortPairs (rail_eligible rail_example "UP" (fun r => r.terminal_dwell_hours))).get
          ⟨(sortPairs (rail_eligible rail_example "UP"
              (fun r => r.terminal_dwell_hours))).length - 1, by decide⟩).2 -
        ((sortPairs (rail_eligible rail_example "UP" (fun r => r.terminal_dwell_hours))).get
          ⟨(sortPairs (rail_eligible rail_example "UP"
              (fun r => r.terminal_dwell_hours))).length - 5, by decide⟩).2) :=
  ⟨by decide,
    (C10_metric_delta_4w rail_example "UP" (fun r => r.terminal_dwell_hours)).2.1 (by decide)⟩

end SupplyChain
